import Mathlib

set_option maxRecDepth 10000

/-!
Verification of the iCalendar-generation core of `scripts/generate_calendar.py`
(earning-calendar-ics).

The script's pure core is shallowly embedded here:

* Python strings are modelled as `List Char` (`Str`); Python compares and
  slices strings by code point, which matches `List Char` exactly.
* Python floats are idealized as exact rationals, represented by explicit
  fractions `PyRat` (numerator/denominator) so that every operation reduces
  in the kernel.  All claim-relevant inputs are integers, where the
  idealization is exact; binary rounding noise of genuine IEEE floats (for
  example `f"{2.675:.2f}"`) is not modelled, and a parsed negative-zero
  string loses its sign.
* Fallible code (Python exceptions: `ValueError` from `fromisoformat`,
  `OverflowError` from date arithmetic, `KeyError` from `item["date"]`) is
  modelled with `Option`, `none` meaning the Python code raises.
* The unbounded `while` loop in `fold_ics_line` is modelled with an explicit
  fuel argument equal to the length of the input line (sufficient whenever
  the Python loop terminates, i.e. whenever `width ≥ 2`); exhausted fuel
  yields `none` and corresponds to Python's non-termination, which is shown
  to be fuel-independent for `width ≤ 1`.
* `build_calendar` reads the current UTC time for `DTSTAMP`; the embedding
  takes the formatted timestamp as an explicit parameter, as spec §4.5
  prescribes for deterministic testing.
-/

namespace EarningsCal

/-- Python strings, modelled as lists of code points. -/
abbrev Str := List Char

/-! ## Exact rational values

An unreduced fraction `num / den`.  Every value constructed below has a
positive denominator, so the cross-multiplied comparisons used in `le`/`lt`
agree with the rational order (see `PyRat.le_iff_val`, `PyRat.lt_iff_val`). -/

structure PyRat where
  num : ℤ
  den : ℕ
deriving DecidableEq

namespace PyRat

/-- The rational value of a fraction (for specification lemmas only). -/
def val (a : PyRat) : ℚ := (a.num : ℚ) / (a.den : ℚ)

/-- An integer as a fraction. -/
def ofInt (n : ℤ) : PyRat := ⟨n, 1⟩

/-- `a ≤ b` by cross-multiplication. -/
def le (a b : PyRat) : Prop := a.num * (b.den : ℤ) ≤ b.num * (a.den : ℤ)

/-- `a < b` by cross-multiplication. -/
def lt (a b : PyRat) : Prop := a.num * (b.den : ℤ) < b.num * (a.den : ℤ)

instance (a b : PyRat) : Decidable (a.le b) := inferInstanceAs (Decidable (_ ≤ _))

instance (a b : PyRat) : Decidable (a.lt b) := inferInstanceAs (Decidable (_ < _))

/-- Division by a (positive) natural constant. -/
def divNat (a : PyRat) (k : ℕ) : PyRat := ⟨a.num, a.den * k⟩

/-- Multiplication by a natural constant. -/
def mulNat (a : PyRat) (k : ℕ) : PyRat := ⟨a.num * k, a.den⟩

/-- Absolute value. -/
def abs (a : PyRat) : PyRat := ⟨|a.num|, a.den⟩

theorem le_iff_val {a b : PyRat} (ha : 0 < a.den) (hb : 0 < b.den) :
    a.le b ↔ a.val ≤ b.val := by
  unfold le val
  rw [div_le_div_iff₀ (by exact_mod_cast ha) (by exact_mod_cast hb)]
  exact_mod_cast Iff.rfl

theorem lt_iff_val {a b : PyRat} (ha : 0 < a.den) (hb : 0 < b.den) :
    a.lt b ↔ a.val < b.val := by
  unfold lt val
  rw [div_lt_div_iff₀ (by exact_mod_cast ha) (by exact_mod_cast hb)]
  exact_mod_cast Iff.rfl

end PyRat

/-! ## Number abbreviator (`fmt_number`, source lines 34–50) -/

/-- Decimal digits of a natural number (`Nat.toDigits` renders in base 10,
without sign, most significant digit first). -/
def natStr (n : ℕ) : Str := Nat.toDigits 10 n

/-- Rendering of an integer, as Python's `str` would. -/
def intStr (i : ℤ) : Str := if i < 0 then '-' :: natStr i.natAbs else natStr i.natAbs

/-- Two-digit zero-padded rendering (for `%m`, `%d` and cent parts). -/
def pad2 (n : ℕ) : Str := if n < 10 then '0' :: natStr n else natStr n

/-- Four-digit zero-padded rendering (for `%Y`). -/
def pad4 (n : ℕ) : Str := List.replicate (4 - (natStr n).length) '0' ++ natStr n

/-- Round-half-to-even to an integer, the rounding used by Python's fixed
point `format`.  `n` is the floor of `q` (`Int.fdiv` is floor division and
`q.den` is positive for every constructed value), and `r2 = 2·den·frac q`,
so `r2 < den ↔ frac q < 1/2` and `den < r2 ↔ 1/2 < frac q`. -/
def roundHalfEven (q : PyRat) : ℤ :=
  let n := q.num.fdiv q.den
  let r2 := 2 * (q.num - n * (q.den : ℤ))
  if r2 < (q.den : ℤ) then n
  else if (q.den : ℤ) < r2 then n + 1
  else if n % 2 = 0 then n else n + 1

/-- Python `f"{q:.0f}"` on the idealized rational: round half to even and
render, keeping the sign of a negative value that rounds to zero. -/
def fmt0 (q : PyRat) : Str :=
  let r := roundHalfEven q
  if r = 0 ∧ q.lt (PyRat.ofInt 0) then ['-', '0'] else intStr r

/-- Python `f"{q:.2f}"` on the idealized rational: scale by 100, round half
to even, and render with two fractional digits. -/
def fmt2 (q : PyRat) : Str :=
  let r := roundHalfEven (q.mulNat 100)
  (if r < 0 ∨ (r = 0 ∧ q.lt (PyRat.ofInt 0)) then ['-'] else []) ++
    natStr (r.natAbs / 100) ++ ['.'] ++ pad2 (r.natAbs % 100)

/-- A digit's numeric value. -/
def digitVal (c : Char) : ℕ := c.toNat - 48

/-- Value of a digit string, most significant first. -/
def digitsToNat (s : Str) : ℕ := s.foldl (fun a c => 10 * a + digitVal c) 0

/-- Python `float(s)` on an unsigned decimal literal `digits[.digits]`
(idealized: exponents, surrounding whitespace, underscores, `inf` and `nan`
are not modelled; no claim depends on them). -/
def parseUnsigned (s : Str) : Option PyRat :=
  let ds1 := s.takeWhile Char.isDigit
  let rest := s.dropWhile Char.isDigit
  match rest with
  | [] => if ds1.isEmpty then none else some ⟨digitsToNat ds1, 1⟩
  | '.' :: rest2 =>
    let ds2 := rest2.takeWhile Char.isDigit
    let rest3 := rest2.dropWhile Char.isDigit
    if rest3.isEmpty ∧ ¬(ds1.isEmpty ∧ ds2.isEmpty) then
      some ⟨digitsToNat (ds1 ++ ds2), 10 ^ ds2.length⟩
    else none
  | _ => none

/-- Python `float(s)` with an optional leading sign. -/
def pyFloatOfStr : Str → Option PyRat
  | '+' :: s => parseUnsigned s
  | '-' :: s => (parseUnsigned s).map (fun q => ⟨-q.num, q.den⟩)
  | s => parseUnsigned s

/-- The argument Python passes to `fmt_number`: `None`, a (JSON) number, or
a string.  Numbers are restricted to integers, which covers every input the
claims mention; see the header comment on float idealization. -/
inductive NumInput
  | null : NumInput
  | int (n : ℤ) : NumInput
  | str (s : Str) : NumInput
deriving DecidableEq

/-- Numeric value of a `fmt_number` argument, `none` when Python's
`float(num)` raises (`None`, or an unparseable string). -/
def numParse : NumInput → Option PyRat
  | NumInput.null => none
  | NumInput.int n => some (PyRat.ofInt n)
  | NumInput.str s => pyFloatOfStr s

/-- `fmt_number` (source lines 34–50): the `num in (None, 0, "0")` sentinel
check, then `float` conversion, then the `n >= 1_000_000_000` /
`n >= 1_000_000` threshold chain.  Note the source compares the *signed*
value `n`, not its absolute value. -/
def fmt_number (x : NumInput) : Str :=
  if x = NumInput.null ∨ x = NumInput.int 0 ∨ x = NumInput.str (("0").toList) then
    ['-']
  else
    match numParse x with
    | none => ['-']
    | some q =>
      if (PyRat.ofInt 1000000000).le q then
        fmt2 (q.divNat 1000000000) ++ (" B").toList
      else if (PyRat.ofInt 1000000).le q then
        fmt0 (q.divNat 1000000) ++ (" M").toList
      else fmt0 q

/-- Reference function following the words of claim C3 / spec §4.1
literally: the thresholds are on the *absolute* value `|v|`, the formatted
quantity is the signed `v/1e9` resp. `v/1e6`. -/
def fmt_number_claim_abs (x : NumInput) : Str :=
  if x = NumInput.null ∨ x = NumInput.int 0 ∨ x = NumInput.str (("0").toList) then
    ['-']
  else
    match numParse x with
    | none => ['-']
    | some q =>
      if (PyRat.ofInt 1000000000).le q.abs then
        fmt2 (q.divNat 1000000000) ++ (" B").toList
      else if (PyRat.ofInt 1000000).le q.abs ∧ q.abs.lt (PyRat.ofInt 1000000000) then
        fmt0 (q.divNat 1000000) ++ (" M").toList
      else fmt0 q

/-- Reference function for the amended claim C3: as `fmt_number_claim_abs`
but with thresholds on the signed value, spelled as the claim's double-sided
interval conditions. -/
def fmt_number_claim_signed (x : NumInput) : Str :=
  if x = NumInput.null ∨ x = NumInput.int 0 ∨ x = NumInput.str (("0").toList) then
    ['-']
  else
    match numParse x with
    | none => ['-']
    | some q =>
      if (PyRat.ofInt 1000000000).le q then
        fmt2 (q.divNat 1000000000) ++ (" B").toList
      else if (PyRat.ofInt 1000000).le q ∧ q.lt (PyRat.ofInt 1000000000) then
        fmt0 (q.divNat 1000000) ++ (" M").toList
      else fmt0 q

/-! ## Text escaper (`escape_ics_text`, source lines 63–70) -/

/-- Python's `str.replace` for a single-character pattern: every occurrence
of `t` is replaced by `r`. -/
def pyReplaceChar (t : Char) (r : Str) : Str → Str
  | [] => []
  | c :: s => (if c = t then r else [c]) ++ pyReplaceChar t r s

/-- `escape_ics_text` (source lines 63–70): four sequential `replace`
calls, backslash first, then semicolon, comma and newline. -/
def escape_ics_text (s : Str) : Str :=
  pyReplaceChar '\n' ['\\', 'n']
    (pyReplaceChar ',' ['\\', ',']
      (pyReplaceChar ';' ['\\', ';']
        (pyReplaceChar '\\' ['\\', '\\'] s)))

/-- Per-character effect of the four sequential replacements. -/
def escChar (c : Char) : Str :=
  if c = '\\' then ['\\', '\\']
  else if c = ';' then ['\\', ';']
  else if c = ',' then ['\\', ',']
  else if c = '\n' then ['\\', 'n']
  else [c]

/-- The inverse mapping named by claim C4: a backslash followed by `;`, `,`
or `n` decodes to the escaped character, a doubled backslash to a backslash,
and every other character to itself. -/
def unescChar (d : Char) : Char :=
  if d = ';' then ';' else if d = ',' then ',' else if d = 'n' then '\n' else d

/-- The inverse unescape of claim C4, scanning left to right and consuming
backslash-introduced pairs.  (A trailing lone backslash, which never occurs
in escaped output, is kept as-is.) -/
def unescape_ics : Str → Str
  | [] => []
  | c :: s =>
    if c = '\\' then
      match s with
      | [] => ['\\']
      | d :: s' => unescChar d :: unescape_ics s'
    else c :: unescape_ics s

/-- "No literal unescaped `;`, `,`, bare `\` or raw newline": scanning left
to right, every backslash is immediately followed by one of `\;,n` (and the
pair is consumed), and no `;`, `,` or newline occurs outside such a pair. -/
def wellEscapedB : Str → Bool
  | [] => true
  | c :: s =>
    if c = '\\' then
      match s with
      | [] => false
      | d :: s' => (d == '\\' || d == ';' || d == ',' || d == 'n') && wellEscapedB s'
    else (!(c == ';') && !(c == ',') && !(c == '\n')) && wellEscapedB s

theorem pyReplaceChar_append (t : Char) (r x y : Str) :
    pyReplaceChar t r (x ++ y) = pyReplaceChar t r x ++ pyReplaceChar t r y := by
  induction x with
  | nil => rfl
  | cons c x ih => simp [pyReplaceChar, ih]

theorem escape_cons (c : Char) (s : Str) :
    escape_ics_text (c :: s) = escChar c ++ escape_ics_text s := by
  show pyReplaceChar _ _ (pyReplaceChar _ _ (pyReplaceChar _ _ ((if c = '\\' then _ else _) ++ _))) = _
  by_cases h1 : c = '\\'
  · subst h1
    simp [escape_ics_text, pyReplaceChar, pyReplaceChar_append, escChar]
  · by_cases h2 : c = ';'
    · subst h2
      simp [escape_ics_text, pyReplaceChar, pyReplaceChar_append, escChar]
    · by_cases h3 : c = ','
      · subst h3
        simp [escape_ics_text, pyReplaceChar, pyReplaceChar_append, escChar]
      · by_cases h4 : c = '\n'
        · subst h4
          simp [escape_ics_text, pyReplaceChar, pyReplaceChar_append, escChar]
        · simp [escape_ics_text, pyReplaceChar, pyReplaceChar_append, escChar, h1, h2, h3, h4]

theorem unescape_escChar (c : Char) (r : Str) :
    unescape_ics (escChar c ++ r) = c :: unescape_ics r := by
  by_cases h1 : c = '\\'
  · subst h1; simp [escChar, unescape_ics, unescChar]
  · by_cases h2 : c = ';'
    · subst h2; simp [escChar, unescape_ics, unescChar]
    · by_cases h3 : c = ','
      · subst h3; simp [escChar, unescape_ics, unescChar]
      · by_cases h4 : c = '\n'
        · subst h4; simp [escChar, unescape_ics, unescChar]
        · rw [show escChar c = [c] from by simp [escChar, h1, h2, h3, h4]]
          rw [List.cons_append, List.nil_append]
          rw [unescape_ics.eq_def]
          simp [h1]

theorem wellEscapedB_escChar (c : Char) (r : Str) :
    wellEscapedB (escChar c ++ r) = wellEscapedB r := by
  by_cases h1 : c = '\\'
  · subst h1; simp [escChar, wellEscapedB]
  · by_cases h2 : c = ';'
    · subst h2; simp [escChar, wellEscapedB]
    · by_cases h3 : c = ','
      · subst h3; simp [escChar, wellEscapedB]
      · by_cases h4 : c = '\n'
        · subst h4; simp [escChar, wellEscapedB]
        · rw [show escChar c = [c] from by simp [escChar, h1, h2, h3, h4]]
          rw [List.cons_append, List.nil_append]
          rw [wellEscapedB.eq_def]
          simp [h1, h2, h3, h4]

/-! ## Line folder (`fold_ics_line`, source lines 73–82) -/

/-- The `while rest:` loop of `fold_ics_line`: take `width − 1` characters,
prefix a space, continue on the remainder.  `fuel` bounds the number of
iterations; `none` models a loop that does not finish within `fuel` steps
(`foldCont_width_le_one` shows this is fuel-independent when `width ≤ 1`,
`foldCont_spec` that `fuel ≥ rest.length` always suffices when
`width ≥ 2`). -/
def foldCont (width : ℕ) : ℕ → Str → Option (List Str)
  | 0, rest => if rest.isEmpty then some [] else none
  | fuel + 1, rest =>
    if rest.isEmpty then some []
    else
      (foldCont width fuel (rest.drop (width - 1))).map
        (fun ls => (' ' :: rest.take (width - 1)) :: ls)

/-- `fold_ics_line` (source lines 73–82): a line within the width is
returned unchanged; otherwise the first `width` characters start the fold
and the loop consumes the remainder.  The fuel `line.length` is sufficient
for every terminating execution of the Python loop. -/
def fold_ics_line (line : Str) (width : ℕ) : Option (List Str) :=
  if line.length ≤ width then some [line]
  else
    (foldCont width line.length (line.drop width)).map
      (fun ls => line.take width :: ls)

/-- Claim C1's reconstruction: keep the first physical line, strip the
single leading continuation character from every later one, concatenate. -/
def unfoldJoin : List Str → Str
  | [] => []
  | first :: conts => first ++ (conts.map List.tail).flatten

/-- With `width ≤ 1` the loop never consumes its remainder: the result is
`none` for every fuel, i.e. the Python loop runs forever. -/
theorem foldCont_width_le_one (width : ℕ) (hw : width ≤ 1) :
    ∀ fuel rest, rest ≠ [] → foldCont width fuel rest = none := by
  intro fuel
  induction fuel with
  | zero =>
    intro rest h
    simp [foldCont, h]
  | succ n ih =>
    intro rest h
    have h0 : width - 1 = 0 := by omega
    match rest, h with
    | a :: t, _ =>
      simp only [foldCont, h0, List.drop_zero, List.isEmpty_cons, Bool.false_eq_true,
        if_false]
      rw [ih (a :: t) (by simp)]
      rfl

/-- Main correctness of the loop for `width ≥ 2`: with fuel at least the
remainder's length it succeeds, every produced line is a space followed by
at most `width − 1` characters, and stripping those spaces restores the
remainder. -/
theorem foldCont_spec (width : ℕ) (hw : 2 ≤ width) :
    ∀ fuel rest, rest.length ≤ fuel →
      ∃ ls, foldCont width fuel rest = some ls ∧
        (∀ l ∈ ls, ∃ t, l = ' ' :: t ∧ t.length ≤ width - 1) ∧
        (ls.map List.tail).flatten = rest := by
  intro fuel
  induction fuel with
  | zero =>
    intro rest hlen
    have : rest = [] := by
      cases rest with
      | nil => rfl
      | cons a t => simp at hlen
    subst this
    exact ⟨[], rfl, by simp, rfl⟩
  | succ n ih =>
    intro rest hlen
    cases hrest : rest with
    | nil => exact ⟨[], by simp [foldCont], by simp, rfl⟩
    | cons a t =>
      subst hrest
      have hlen' : (List.drop (width - 1) (a :: t)).length ≤ n := by
        simp only [List.length_drop, List.length_cons]
        simp only [List.length_cons] at hlen
        omega
      obtain ⟨ls, hls, hprops, hjoin⟩ := ih (List.drop (width - 1) (a :: t)) hlen'
      refine ⟨(' ' :: List.take (width - 1) (a :: t)) :: ls, ?_, ?_, ?_⟩
      · simp only [foldCont, List.isEmpty_cons, Bool.false_eq_true, if_false, hls]
        rfl
      · intro l hl
        rcases List.mem_cons.mp hl with h | h
        · exact ⟨List.take (width - 1) (a :: t), h, List.length_take_le (width - 1) (a :: t)⟩
        · exact hprops l h
      · simp only [List.map_cons, List.flatten_cons, List.tail_cons, hjoin]
        exact List.take_append_drop _ _

/-- Structure of `fold_ics_line` for any width the loop terminates on:
the output exists, the first physical line is the first `width` characters,
each continuation is one space plus at most `width − 1` characters, and
`unfoldJoin` restores the input. -/
theorem fold_ics_line_spec (line : Str) (width : ℕ)
    (h : 2 ≤ width ∨ line.length ≤ width) :
    ∃ ls, fold_ics_line line width = some ls ∧
      (∀ l ∈ ls, l.length ≤ width) ∧
      unfoldJoin ls = line ∧
      (∀ l ∈ ls.tail, ∃ t, l = ' ' :: t) ∧
      ls.head? = some (line.take width) ∧
      (line.length ≤ width → ls = [line]) := by
  by_cases hle : line.length ≤ width
  · refine ⟨[line], ?_, ?_, ?_, ?_, ?_, fun _ => rfl⟩
    · simp [fold_ics_line, hle]
    · intro l hl
      rcases List.mem_singleton.mp hl with rfl
      exact hle
    · simp [unfoldJoin]
    · intro l hl
      simp at hl
    · simp [List.take_of_length_le hle]
  · have hw : 2 ≤ width := by
      rcases h with h | h
      · exact h
      · exact absurd h hle
    obtain ⟨ls, hls, hprops, hjoin⟩ :=
      foldCont_spec width hw line.length (line.drop width)
        (by simp only [List.length_drop]; omega)
    refine ⟨line.take width :: ls, ?_, ?_, ?_, ?_, ?_, fun hc => absurd hc hle⟩
    · simp only [fold_ics_line, if_neg hle, hls]
      rfl
    · intro l hl
      rcases List.mem_cons.mp hl with rfl | hmem
      · exact List.length_take_le width line
      · obtain ⟨t, rfl, ht⟩ := hprops l hmem
        simp only [List.length_cons]
        omega
    · simp only [unfoldJoin, hjoin]
      exact List.take_append_drop _ _
    · intro l hl
      obtain ⟨t, rfl, _⟩ := hprops l hl
      exact ⟨t, rfl⟩
    · rfl

/-! ## Calendar dates (`datetime.date` arithmetic used in `to_event_lines`)

`datetime.fromisoformat(...).date()` parses a `YYYY-MM-DD` string into a
proleptic-Gregorian date with `1 ≤ year ≤ 9999`; `+ timedelta(days=1)`
raises `OverflowError` past `9999-12-31`. -/

structure Date where
  y : ℕ
  m : ℕ
  d : ℕ
deriving DecidableEq

/-- Gregorian leap year. -/
def isLeap (y : ℕ) : Prop := (y % 4 = 0 ∧ y % 100 ≠ 0) ∨ y % 400 = 0

instance (y : ℕ) : Decidable (isLeap y) := by unfold isLeap; infer_instance

/-- Length of a month. -/
def daysInMonth (y m : ℕ) : ℕ :=
  if m = 2 then (if isLeap y then 29 else 28)
  else if m = 4 ∨ m = 6 ∨ m = 9 ∨ m = 11 then 30
  else 31

/-- The dates representable by Python's `datetime.date`. -/
def validDate (dt : Date) : Prop :=
  1 ≤ dt.y ∧ dt.y ≤ 9999 ∧ 1 ≤ dt.m ∧ dt.m ≤ 12 ∧ 1 ≤ dt.d ∧ dt.d ≤ daysInMonth dt.y dt.m

instance (dt : Date) : Decidable (validDate dt) := by unfold validDate; infer_instance

/-- `datetime.fromisoformat(s).date()` on the provider's `YYYY-MM-DD` form
(the embedding accepts exactly this shape; `none` models `ValueError`). -/
def parseIsoDate (s : Str) : Option Date :=
  match s with
  | [y1, y2, y3, y4, sep1, m1, m2, sep2, d1, d2] =>
    if y1.isDigit ∧ y2.isDigit ∧ y3.isDigit ∧ y4.isDigit ∧ sep1 = '-' ∧
        m1.isDigit ∧ m2.isDigit ∧ sep2 = '-' ∧ d1.isDigit ∧ d2.isDigit then
      let dt : Date := ⟨digitsToNat [y1, y2, y3, y4], digitsToNat [m1, m2], digitsToNat [d1, d2]⟩
      if validDate dt then some dt else none
    else none
  | _ => none

/-- `event_date + timedelta(days=1)` (source line 89): Gregorian successor,
`none` modelling the `OverflowError` raised past `date.max = 9999-12-31`. -/
def nextDay (dt : Date) : Option Date :=
  if dt.d < daysInMonth dt.y dt.m then some ⟨dt.y, dt.m, dt.d + 1⟩
  else if dt.m < 12 then some ⟨dt.y, dt.m + 1, 1⟩
  else if dt.y < 9999 then some ⟨dt.y + 1, 1, 1⟩
  else none

/-- Number of leap years in `1..y`. -/
def leapsBefore (y : ℕ) : ℕ := y / 4 - y / 100 + y / 400

/-- Days in months `1..m-1` of year `y`. -/
def daysBeforeMonth (y : ℕ) : ℕ → ℕ
  | 0 => 0
  | m + 1 => daysBeforeMonth y m + (if m = 0 then 0 else daysInMonth y m)

/-- Day count of a date (a rata-die style linear ordinal): two valid dates
are consecutive exactly when their ordinals differ by one. -/
def toOrdinal (dt : Date) : ℕ :=
  365 * (dt.y - 1) + leapsBefore (dt.y - 1) + daysBeforeMonth dt.y dt.m + dt.d

theorem daysInMonth_pos (y m : ℕ) : 1 ≤ daysInMonth y m := by
  unfold daysInMonth
  split_ifs <;> omega

theorem daysBeforeMonth_succ (y m : ℕ) (hm : 1 ≤ m) :
    daysBeforeMonth y (m + 1) = daysBeforeMonth y m + daysInMonth y m := by
  have : ¬ m = 0 := by omega
  simp [daysBeforeMonth, this]

theorem daysBeforeMonth_twelve (y : ℕ) :
    daysBeforeMonth y 12 = 306 + daysInMonth y 2 := by
  have h : ∀ m, 1 ≤ m → daysBeforeMonth y (m + 1) = daysBeforeMonth y m + daysInMonth y m :=
    daysBeforeMonth_succ y
  have s12 : daysBeforeMonth y 12 = daysBeforeMonth y 11 + daysInMonth y 11 := h 11 (by omega)
  have s11 : daysBeforeMonth y 11 = daysBeforeMonth y 10 + daysInMonth y 10 := h 10 (by omega)
  have s10 : daysBeforeMonth y 10 = daysBeforeMonth y 9 + daysInMonth y 9 := h 9 (by omega)
  have s9 : daysBeforeMonth y 9 = daysBeforeMonth y 8 + daysInMonth y 8 := h 8 (by omega)
  have s8 : daysBeforeMonth y 8 = daysBeforeMonth y 7 + daysInMonth y 7 := h 7 (by omega)
  have s7 : daysBeforeMonth y 7 = daysBeforeMonth y 6 + daysInMonth y 6 := h 6 (by omega)
  have s6 : daysBeforeMonth y 6 = daysBeforeMonth y 5 + daysInMonth y 5 := h 5 (by omega)
  have s5 : daysBeforeMonth y 5 = daysBeforeMonth y 4 + daysInMonth y 4 := h 4 (by omega)
  have s4 : daysBeforeMonth y 4 = daysBeforeMonth y 3 + daysInMonth y 3 := h 3 (by omega)
  have s3 : daysBeforeMonth y 3 = daysBeforeMonth y 2 + daysInMonth y 2 := h 2 (by omega)
  have s2 : daysBeforeMonth y 2 = daysBeforeMonth y 1 + daysInMonth y 1 := h 1 (by omega)
  have e1 : daysBeforeMonth y 1 = 0 := rfl
  have d1 : daysInMonth y 1 = 31 := rfl
  have d3 : daysInMonth y 3 = 31 := rfl
  have d4 : daysInMonth y 4 = 30 := rfl
  have d5 : daysInMonth y 5 = 31 := rfl
  have d6 : daysInMonth y 6 = 30 := rfl
  have d7 : daysInMonth y 7 = 31 := rfl
  have d8 : daysInMonth y 8 = 31 := rfl
  have d9 : daysInMonth y 9 = 30 := rfl
  have d10 : daysInMonth y 10 = 31 := rfl
  have d11 : daysInMonth y 11 = 30 := rfl
  omega

theorem leapsBefore_succ (y : ℕ) (hy : 1 ≤ y) :
    leapsBefore y = leapsBefore (y - 1) + (if isLeap y then 1 else 0) := by
  unfold leapsBefore isLeap
  split_ifs <;> omega

theorem daysInMonth_feb (y : ℕ) :
    daysInMonth y 2 = if isLeap y then 29 else 28 := rfl

/-- Correctness of the day increment: on a valid date it yields (unless the
Python range overflows) the next day in the linear day count, and the
successor is again a valid date. -/
theorem nextDay_toOrdinal (dt e : Date) (hv : validDate dt) (h : nextDay dt = some e) :
    toOrdinal e = toOrdinal dt + 1 ∧ validDate e := by
  unfold nextDay at h
  split_ifs at h with h1 h2 h3
  · injection h with h'
    subst h'
    constructor
    · unfold toOrdinal
      dsimp only
      omega
    · unfold validDate at hv ⊢
      dsimp only at hv ⊢
      omega
  · injection h with h'
    subst h'
    unfold validDate at hv
    constructor
    · unfold toOrdinal
      dsimp
      rw [daysBeforeMonth_succ dt.y dt.m (by omega)]
      omega
    · have hpos := daysInMonth_pos dt.y (dt.m + 1)
      unfold validDate
      dsimp
      omega
  · injection h with h'
    subst h'
    unfold validDate at hv
    have hm : dt.m = 12 := by omega
    have hdim : daysInMonth dt.y 12 = 31 := rfl
    have hd : dt.d = 31 := by
      rw [hm] at hv h1
      omega
    constructor
    · unfold toOrdinal
      dsimp
      have e1 : daysBeforeMonth (dt.y + 1) 1 = 0 := rfl
      have e2 := daysBeforeMonth_twelve dt.y
      have e3 := leapsBefore_succ dt.y (by omega)
      have e4 := daysInMonth_feb dt.y
      rw [hm, hd]
      by_cases hl : isLeap dt.y
      · rw [if_pos hl] at e3
        rw [if_pos hl] at e4
        omega
      · rw [if_neg hl] at e3
        rw [if_neg hl] at e4
        omega
    · have hdim1 : daysInMonth (dt.y + 1) 1 = 31 := rfl
      unfold validDate
      dsimp
      omega

theorem parseIsoDate_valid (s : Str) (dt : Date) (h : parseIsoDate s = some dt) :
    validDate dt := by
  unfold parseIsoDate at h
  split at h
  · dsimp only at h
    split_ifs at h with hc hv
    · injection h with h'
      subst h'
      exact hv
  · cases h

/-! ## Records and the event encoder (`to_event_lines`, source lines 85–111) -/

/-- `%Y%m%d` of `strftime`. -/
def yyyymmdd (dt : Date) : Str := pad4 dt.y ++ pad2 dt.m ++ pad2 dt.d

/-- `date.isoformat()`. -/
def isoFmt (dt : Date) : Str := pad4 dt.y ++ ['-'] ++ pad2 dt.m ++ ['-'] ++ pad2 dt.d

/-- Python `sep.join(...)`. -/
def joinStr (sep : Str) (ls : List Str) : Str := List.intercalate sep ls

/-- One raw Finnhub record.  A field is `none` when the key is absent from
the JSON object.  `quarter` and `epsEstimate` are stored in the rendered
form Python's f-string interpolation would produce (the encoder only ever
interpolates them); `revenueEstimate` is the raw value handed to
`fmt_number`, with `NumInput.null` for an absent key. -/
structure EarningsRec where
  symbol : Option Str
  date : Option Str
  quarter : Option Str
  epsEstimate : Option Str
  revenueEstimate : NumInput
deriving DecidableEq

/-- The eight VEVENT content lines produced for one record once the two
dates are known (the body of `to_event_lines`, source lines 87–111). -/
def eventLinesCore (item : EarningsRec) (dtstamp : Str) (event_date end_date : Date) : List Str :=
  let symbol := item.symbol.getD (("UNKNOWN").toList)
  let uid := symbol ++ ("-").toList ++ isoFmt event_date ++ ("@earning-calendar-ics").toList
  let description := joinStr ['\n']
    [ ("Ticker: ").toList ++ symbol,
      ("Fiscal Qtr: ").toList ++ item.quarter.getD (("-").toList),
      ("Estimate EPS: ").toList ++ item.epsEstimate.getD (("-").toList),
      ("Est. Revenue: ").toList ++ fmt_number item.revenueEstimate,
      ("Source: Finnhub (non-GAAP)").toList ]
  [ ("BEGIN:VEVENT").toList,
    ("UID:").toList ++ escape_ics_text uid,
    ("DTSTAMP:").toList ++ dtstamp,
    ("DTSTART;VALUE=DATE:").toList ++ yyyymmdd event_date,
    ("DTEND;VALUE=DATE:").toList ++ yyyymmdd end_date,
    ("SUMMARY:").toList ++ escape_ics_text (symbol ++ (" Earnings").toList),
    ("DESCRIPTION:").toList ++ escape_ics_text description,
    ("END:VEVENT").toList ]

/-- `to_event_lines` (source lines 85–111).  `item["date"]` raises on a
missing key, `fromisoformat` on an unparseable date, and
`event_date + timedelta(days=1)` on `9999-12-31`; all three are `none`
here. -/
def to_event_lines (item : EarningsRec) (dtstamp : Str) : Option (List Str) :=
  match item.date with
  | none => none
  | some ds =>
    match parseIsoDate ds with
    | none => none
    | some event_date =>
      match nextDay event_date with
      | none => none
      | some end_date => some (eventLinesCore item dtstamp event_date end_date)

/-- A fixed timestamp used by the concrete witnesses (spec §4.5 lets the
caller inject it). -/
def ts0 : Str := ("20250101T000000Z").toList

/-! ## Sorting (`sorted(records, key=lambda r: (r.get("date", ""), r.get("symbol", "")))`)

Python compares strings lexicographically by code point and tuples
componentwise; `sorted` is a stable sort.  A stable sort for a total
preorder has a unique result, and `List.insertionSort` (which inserts each
element *before* the equal elements of the already-sorted suffix of later
elements) is such a stable sort, so it models `sorted` exactly. -/

/-- Code-point lexicographic strict order on strings, Python's `<`. -/
def strLt : Str → Str → Bool
  | _, [] => false
  | [], _ :: _ => true
  | a :: s, b :: t =>
    if a.toNat < b.toNat then true
    else if b.toNat < a.toNat then false
    else strLt s t

/-- Code-point lexicographic order on strings, Python's `<=`. -/
def strLe (a b : Str) : Bool := strLt a b || a == b

theorem charToNat_inj {a b : Char} (h : a.toNat = b.toNat) : a = b := by
  refine Char.eq_of_val_eq ?_
  unfold Char.toNat at h
  exact UInt32.toNat.inj h

theorem strLt_nil (s : Str) : strLt s [] = false := by
  cases s <;> rfl

theorem strLt_trans : ∀ (a b c : Str), strLt a b = true → strLt b c = true → strLt a c = true := by
  intro a
  induction a with
  | nil =>
    intro b c _ h2
    cases c with
    | nil => rw [strLt_nil] at h2; cases h2
    | cons y c => rfl
  | cons p s ih =>
    intro b c h1 h2
    cases b with
    | nil => rw [strLt_nil] at h1; cases h1
    | cons q t =>
      cases c with
      | nil => rw [strLt_nil] at h2; cases h2
      | cons r u =>
        simp only [strLt] at h1 h2 ⊢
        by_cases hpq : p.toNat < q.toNat
        · by_cases hqr : q.toNat < r.toNat
          · rw [if_pos (by omega)]
          · rw [if_neg hqr] at h2
            by_cases hrq : r.toNat < q.toNat
            · rw [if_pos hrq] at h2; cases h2
            · rw [if_neg hrq] at h2
              rw [if_pos (by omega)]
        · rw [if_neg hpq] at h1
          by_cases hqp : q.toNat < p.toNat
          · rw [if_pos hqp] at h1; cases h1
          · rw [if_neg hqp] at h1
            by_cases hqr : q.toNat < r.toNat
            · rw [if_pos (by omega)]
            · rw [if_neg hqr] at h2
              by_cases hrq : r.toNat < q.toNat
              · rw [if_pos hrq] at h2; cases h2
              · rw [if_neg hrq] at h2
                rw [if_neg (by omega), if_neg (by omega)]
                exact ih t u h1 h2

theorem strLt_conn : ∀ (a b : Str), strLt a b = false → strLt b a = false → a = b := by
  intro a
  induction a with
  | nil =>
    intro b h1 _
    cases b with
    | nil => rfl
    | cons y t => simp [strLt] at h1
  | cons p s ih =>
    intro b h1 h2
    cases b with
    | nil => simp [strLt] at h2
    | cons q t =>
      simp only [strLt] at h1 h2
      by_cases hpq : p.toNat < q.toNat
      · rw [if_pos hpq] at h1; cases h1
      · rw [if_neg hpq] at h1
        by_cases hqp : q.toNat < p.toNat
        · rw [if_pos hqp] at h2; cases h2
        · rw [if_neg hqp] at h1
          rw [if_neg (by omega), if_neg (by omega)] at h2
          have hc : p = q := charToNat_inj (by omega)
          subst hc
          rw [ih t h1 h2]

theorem strLe_iff (a b : Str) : strLe a b = true ↔ strLt a b = true ∨ a = b := by
  simp [strLe]

theorem strLe_total (a b : Str) : strLe a b = true ∨ strLe b a = true := by
  by_cases h1 : strLt a b = true
  · exact Or.inl ((strLe_iff a b).mpr (Or.inl h1))
  · by_cases h2 : strLt b a = true
    · exact Or.inr ((strLe_iff b a).mpr (Or.inl h2))
    · have : a = b := strLt_conn a b (Bool.eq_false_iff.mpr h1) (Bool.eq_false_iff.mpr h2)
      exact Or.inl ((strLe_iff a b).mpr (Or.inr this))

theorem strLe_trans {a b c : Str} (h1 : strLe a b = true) (h2 : strLe b c = true) :
    strLe a c = true := by
  rcases (strLe_iff a b).mp h1 with h1 | rfl
  · rcases (strLe_iff b c).mp h2 with h2 | rfl
    · exact (strLe_iff a c).mpr (Or.inl (strLt_trans a b c h1 h2))
    · exact (strLe_iff a b).mpr (Or.inl h1)
  · exact h2

/-- `r.get("date", "")` of the sort key. -/
def keyDate (r : EarningsRec) : Str := r.date.getD []

/-- `r.get("symbol", "")` of the sort key. -/
def keySym (r : EarningsRec) : Str := r.symbol.getD []

/-- Python's tuple order on the sort keys
`(r.get("date", ""), r.get("symbol", ""))`. -/
def recLe (a b : EarningsRec) : Prop :=
  strLt (keyDate a) (keyDate b) = true ∨
    (keyDate a = keyDate b ∧ strLe (keySym a) (keySym b) = true)

instance : DecidableRel recLe := fun a b => by unfold recLe; infer_instance

instance : IsTotal EarningsRec recLe := by
  constructor
  intro a b
  by_cases h1 : strLt (keyDate a) (keyDate b) = true
  · exact Or.inl (Or.inl h1)
  · by_cases h2 : strLt (keyDate b) (keyDate a) = true
    · exact Or.inr (Or.inl h2)
    · have hd : keyDate a = keyDate b :=
        strLt_conn _ _ (Bool.eq_false_iff.mpr h1) (Bool.eq_false_iff.mpr h2)
      rcases strLe_total (keySym a) (keySym b) with h | h
      · exact Or.inl (Or.inr ⟨hd, h⟩)
      · exact Or.inr (Or.inr ⟨hd.symm, h⟩)

instance : IsTrans EarningsRec recLe := by
  constructor
  intro a b c hab hbc
  rcases hab with hab | ⟨hdab, hsab⟩
  · rcases hbc with hbc | ⟨hdbc, _⟩
    · exact Or.inl (strLt_trans _ _ _ hab hbc)
    · exact Or.inl (hdbc ▸ hab)
  · rcases hbc with hbc | ⟨hdbc, hsbc⟩
    · exact Or.inl (hdab ▸ hbc)
    · exact Or.inr ⟨hdab.trans hdbc, strLe_trans hsab hsbc⟩

/-- Python's `sorted(records, key=lambda r: (r.get("date", ""), r.get("symbol", "")))`. -/
def pySorted (records : List EarningsRec) : List EarningsRec :=
  List.insertionSort recLe records

/-! ## Document builder (`build_calendar`, source lines 114–137) -/

/-- Truthiness of `rec.get("date")` (source line 127): present and
non-empty. -/
def hasDate (r : EarningsRec) : Bool :=
  match r.date with
  | none => false
  | some s => !s.isEmpty

/-- The record loop of `build_calendar` (source lines 126–129): skip
records without a truthy date, extend with the encoded block otherwise;
an encoder exception aborts the build (`none`). -/
def evLoop (dtstamp : Str) : List EarningsRec → Option (List Str)
  | [] => some []
  | r :: rs =>
    if hasDate r then
      match to_event_lines r dtstamp with
      | none => none
      | some b => (evLoop dtstamp rs).map (fun rest => b ++ rest)
    else evLoop dtstamp rs

/-- The fixed document header (source lines 117–124). -/
def headerLines : List Str :=
  [ ("BEGIN:VCALENDAR").toList,
    ("VERSION:2.0").toList,
    ("PRODID:-//earning-calendar-ics//EN").toList,
    ("CALSCALE:GREGORIAN").toList,
    ("METHOD:PUBLISH").toList,
    ("X-WR-CALNAME:Earnings Calendar").toList ]

def beginVCal : Str := ("BEGIN:VCALENDAR").toList

def endVCal : Str := ("END:VCALENDAR").toList

def beginVEvent : Str := ("BEGIN:VEVENT").toList

def endVEvent : Str := ("END:VEVENT").toList

/-- The logical (pre-folding) content lines assembled by `build_calendar`
(source lines 117–131). -/
def logicalLines (records : List EarningsRec) (dtstamp : Str) : Option (List Str) :=
  (evLoop dtstamp (pySorted records)).map (fun evs => headerLines ++ evs ++ [endVCal])

/-- The folding pass over all assembled lines (source lines 133–135). -/
def foldAll : List Str → Option (List Str)
  | [] => some []
  | l :: ls =>
    match fold_ics_line l 75 with
    | none => none
    | some fs => (foldAll ls).map (fun rest => fs ++ rest)

def crlf : Str := ['\r', '\n']

/-- `build_calendar` (source lines 114–137): header, sorted filtered event
blocks, footer, folding, CRLF join with a trailing CRLF.  The DTSTAMP
string (`datetime.now(timezone.utc).strftime(...)` in the source) is an
explicit parameter. -/
def build_calendar (records : List EarningsRec) (dtstamp : Str) : Option Str :=
  (logicalLines records dtstamp).bind
    (fun L => (foldAll L).map (fun F => joinStr crlf F ++ crlf))

/-- The records whose blocks appear in the document, in document order. -/
def emitted (records : List EarningsRec) : List EarningsRec :=
  (pySorted records).filter hasDate

/-- The ordered list of VEVENT blocks for a record list. -/
def blocksOf (dtstamp : Str) : List EarningsRec → Option (List (List Str))
  | [] => some []
  | r :: rs =>
    match to_event_lines r dtstamp with
    | none => none
    | some b => (blocksOf dtstamp rs).map (fun bs => b :: bs)

/-! ## Claim theorems for C1, C3, C4 -/

/-- C1, counterexample.  The claim quantifies over *every* width `W`; at
`W = 1` (and any string longer than `W`) the source's `while` loop never
shrinks `rest = rest[width - 1:]`, so `fold_ics_line` never returns at all
(`foldCont_width_le_one` shows the modelled loop yields `none` at every
fuel).  Hence no output sequence with the claimed properties exists. -/
theorem c1_counterexample :
    ¬ ∃ ls, fold_ics_line (("ab").toList) 1 = some ls ∧
      (∀ l ∈ ls, l.length ≤ 1) ∧ unfoldJoin ls = ("ab").toList := by
  intro ⟨ls, hsome, _, _⟩
  have hnone : fold_ics_line (("ab").toList) 1 = none := by
    have := foldCont_width_le_one 1 (le_refl 1) 2 (['b']) (by simp)
    simp [fold_ics_line, this]
  rw [hnone] at hsome
  cases hsome

/-- C1 (amended): for every width `W ≥ 2` — and for any `W` at all when the
string already fits, in which case the output is the one-element sequence
`[s]` — folding returns physical lines of length at most `W` whose
concatenation, after stripping the single leading continuation space from
every line after the first, is exactly the input.  (For `W ≤ 1` and longer
input the source loop diverges; see `c1_counterexample`.) -/
theorem c1_fold_roundtrip (line : Str) (width : ℕ)
    (h : 2 ≤ width ∨ line.length ≤ width) :
    ∃ ls, fold_ics_line line width = some ls ∧
      (∀ l ∈ ls, l.length ≤ width) ∧
      unfoldJoin ls = line ∧
      (∀ l ∈ ls.tail, ∃ t, l = ' ' :: t) ∧
      (line.length ≤ width → ls = [line]) := by
  obtain ⟨ls, h1, h2, h3, h4, _, h6⟩ := fold_ics_line_spec line width h
  exact ⟨ls, h1, h2, h3, h4, h6⟩

theorem c1_fold_roundtrip_witness :
    (2 ≤ 3 ∨ (("abcdefg").toList).length ≤ 3) ∧
    (∃ ls, fold_ics_line (("abcdefg").toList) 3 = some ls ∧
      (∀ l ∈ ls, l.length ≤ 3) ∧
      unfoldJoin ls = ("abcdefg").toList ∧
      (∀ l ∈ ls.tail, ∃ t, l = ' ' :: t) ∧
      ((("abcdefg").toList).length ≤ 3 → ls = [("abcdefg").toList])) :=
  ⟨Or.inl (by decide), c1_fold_roundtrip (("abcdefg").toList) 3 (Or.inl (by decide))⟩

/-- C3, counterexample.  The source compares the signed value against the
thresholds (`n >= 1_000_000_000`), the claim the absolute value: at
`-2_000_000_000` the code prints the plain integer string while the claim's
piecewise reference demands `"-2.00 B"`. -/
theorem c3_counterexample :
    fmt_number (NumInput.int (-2000000000)) = ("-2000000000").toList ∧
    fmt_number_claim_abs (NumInput.int (-2000000000)) = ("-2.00 B").toList ∧
    fmt_number (NumInput.int (-2000000000)) ≠
      fmt_number_claim_abs (NumInput.int (-2000000000)) :=
  ⟨by decide, by decide, by decide⟩

/-- C3 (amended): `fmt_number` equals the piecewise reference whose
thresholds compare the *signed* parsed value (`v ≥ 1e9`, then
`1e6 ≤ v < 1e9`), with the claim's sentinel and boundary examples:
`fmt(999999)` is the plain integer string, `fmt(1000000) = "1 M"`,
`fmt(1234567890) = "1.23 B"`. -/
theorem c3_fmt_number_piecewise :
    (∀ x, fmt_number x = fmt_number_claim_signed x) ∧
    fmt_number (NumInput.int 999999) = ("999999").toList ∧
    fmt_number (NumInput.int 1000000) = ("1 M").toList ∧
    fmt_number (NumInput.int 1234567890) = ("1.23 B").toList := by
  refine ⟨?_, by decide, by decide, by decide⟩
  intro x
  unfold fmt_number fmt_number_claim_signed
  by_cases h0 : x = NumInput.null ∨ x = NumInput.int 0 ∨ x = NumInput.str (("0").toList)
  · rw [if_pos h0, if_pos h0]
  · rw [if_neg h0, if_neg h0]
    cases hq : numParse x with
    | none => rfl
    | some q =>
      dsimp only
      by_cases h1 : (PyRat.ofInt 1000000000).le q
      · rw [if_pos h1, if_pos h1]
      · rw [if_neg h1, if_neg h1]
        have h2 : q.lt (PyRat.ofInt 1000000000) := by
          unfold PyRat.le PyRat.ofInt at h1
          unfold PyRat.lt PyRat.ofInt
          simp only [Nat.cast_one, mul_one] at h1 ⊢
          omega
        by_cases h3 : (PyRat.ofInt 1000000).le q
        · rw [if_pos h3, if_pos ⟨h3, h2⟩]
        · rw [if_neg h3, if_neg (fun hc => h3 hc.1)]

/-- C4: for every input string the escaped output contains no unescaped
`;`, `,`, bare `\` or raw newline (`wellEscapedB`), and the inverse
unescape of the claim recovers the original string exactly. -/
theorem c4_escaper_roundtrip (s : Str) :
    wellEscapedB (escape_ics_text s) = true ∧ unescape_ics (escape_ics_text s) = s := by
  induction s with
  | nil => exact ⟨rfl, rfl⟩
  | cons c s ih =>
    rw [escape_cons, wellEscapedB_escChar, unescape_escChar, ih.2]
    exact ⟨ih.1, rfl⟩

/-! ## Claim theorems for C5 and C9 -/

/-- The record of claim C5's example with the maximal Python date. -/
def recC5max : EarningsRec :=
  ⟨some (("ACME").toList), some (("9999-12-31").toList), none, none, NumInput.null⟩

/-- C5, counterexample.  `9999-12-31` is a valid, parseable date — so the
record is a "valid record" in the claim's sense — yet the source's
`event_date + timedelta(days=1)` raises `OverflowError` there
(`datetime.MAXYEAR = 9999`), so the encoder produces no VEVENT block at
all instead of the claimed `DTSTART`/`DTEND` pair. -/
theorem c5_counterexample :
    parseIsoDate (("9999-12-31").toList) = some ⟨9999, 12, 31⟩ ∧
    validDate ⟨9999, 12, 31⟩ ∧
    to_event_lines recC5max ts0 = none :=
  ⟨by decide, by decide, by decide⟩

/-- C5 (amended): for every record whose date parses as a valid ISO date
*and* whose successor is still representable (i.e. the date is not
`9999-12-31`, where the source raises `OverflowError`), the encoded block
contains `DTSTART;VALUE=DATE:` with the date in `YYYYMMDD` form and
`DTEND;VALUE=DATE:` with the next calendar day: the end date is again
valid and its linear day ordinal is exactly one larger, so the
exclusive-end convention is correct across month and year boundaries. -/
theorem c5_event_dates (item : EarningsRec) (dtstamp ds : Str) (d e : Date)
    (hds : item.date = some ds) (hd : parseIsoDate ds = some d) (he : nextDay d = some e) :
    ∃ lines, to_event_lines item dtstamp = some lines ∧
      (("DTSTART;VALUE=DATE:").toList ++ yyyymmdd d) ∈ lines ∧
      (("DTEND;VALUE=DATE:").toList ++ yyyymmdd e) ∈ lines ∧
      toOrdinal e = toOrdinal d + 1 ∧ validDate e := by
  have hv := parseIsoDate_valid ds d hd
  obtain ⟨ho, hve⟩ := nextDay_toOrdinal d e hv he
  refine ⟨eventLinesCore item dtstamp d e, ?_, ?_, ?_, ho, hve⟩
  · unfold to_event_lines
    rw [hds]
    dsimp only
    rw [hd]
    dsimp only
    rw [he]
  · unfold eventLinesCore
    simp
  · unfold eventLinesCore
    simp

/-- The record of claim C5's worked example. -/
def recC5 : EarningsRec :=
  ⟨some (("ACME").toList), some (("2024-05-10").toList), none, none, NumInput.null⟩

theorem c5_event_dates_witness :
    parseIsoDate (("2024-05-10").toList) = some ⟨2024, 5, 10⟩ ∧
    nextDay ⟨2024, 5, 10⟩ = some ⟨2024, 5, 11⟩ ∧
    (∃ lines, to_event_lines recC5 ts0 = some lines ∧
      (("DTSTART;VALUE=DATE:").toList ++ yyyymmdd ⟨2024, 5, 10⟩) ∈ lines ∧
      (("DTEND;VALUE=DATE:").toList ++ yyyymmdd ⟨2024, 5, 11⟩) ∈ lines ∧
      toOrdinal ⟨2024, 5, 11⟩ = toOrdinal ⟨2024, 5, 10⟩ + 1 ∧ validDate ⟨2024, 5, 11⟩) ∧
    ("DTSTART;VALUE=DATE:").toList ++ yyyymmdd ⟨2024, 5, 10⟩ =
      ("DTSTART;VALUE=DATE:20240510").toList ∧
    ("DTEND;VALUE=DATE:").toList ++ yyyymmdd ⟨2024, 5, 11⟩ =
      ("DTEND;VALUE=DATE:20240511").toList :=
  ⟨by decide, by decide,
    c5_event_dates recC5 ts0 (("2024-05-10").toList) ⟨2024, 5, 10⟩ ⟨2024, 5, 11⟩
      rfl (by decide) (by decide),
    by decide, by decide⟩

/-- C9: for every record the encoder accepts, the block has exactly eight
lines and its seventh is the DESCRIPTION property: the escape of exactly
five labeled lines in fixed order — ticker symbol (placeholder `UNKNOWN`
when the symbol is missing, via `Option.getD`), fiscal quarter or `-`, EPS
estimate or `-`, the abbreviated revenue estimate via `fmt_number`, and
the constant source-attribution line. -/
theorem c9_description (item : EarningsRec) (dtstamp ds : Str) (d e : Date)
    (hds : item.date = some ds) (hd : parseIsoDate ds = some d) (he : nextDay d = some e) :
    ∃ lines, to_event_lines item dtstamp = some lines ∧ lines.length = 8 ∧
      lines.get? 6 = some (("DESCRIPTION:").toList ++ escape_ics_text (joinStr ['\n']
        [ ("Ticker: ").toList ++ item.symbol.getD (("UNKNOWN").toList),
          ("Fiscal Qtr: ").toList ++ item.quarter.getD (("-").toList),
          ("Estimate EPS: ").toList ++ item.epsEstimate.getD (("-").toList),
          ("Est. Revenue: ").toList ++ fmt_number item.revenueEstimate,
          ("Source: Finnhub (non-GAAP)").toList ])) := by
  refine ⟨eventLinesCore item dtstamp d e, ?_, rfl, rfl⟩
  unfold to_event_lines
  rw [hds]
  dsimp only
  rw [hd]
  dsimp only
  rw [he]

/-- The record used by C9's witness: missing symbol (exercising the
`UNKNOWN` placeholder), present quarter/EPS/revenue. -/
def recC9 : EarningsRec :=
  ⟨none, some (("2024-05-10").toList), some (("2").toList), some (("2.5").toList),
    NumInput.int 456000000⟩

/-! ## Structural lemmas about the build pipeline -/

theorem orderedInsert_forall_cons {a : EarningsRec} {l : List EarningsRec}
    (h : ∀ c ∈ l, recLe a c) : List.orderedInsert recLe a l = a :: l := by
  cases l with
  | nil => rfl
  | cons b t => exact List.orderedInsert_of_le recLe t (h b (List.mem_cons_self b t))

theorem filter_orderedInsert (p : EarningsRec → Bool) (a : EarningsRec) :
    ∀ l : List EarningsRec, l.Sorted recLe →
      (List.orderedInsert recLe a l).filter p =
        if p a then List.orderedInsert recLe a (l.filter p) else l.filter p := by
  intro l
  induction l with
  | nil =>
    intro _
    by_cases hpa : p a <;>
      simp [List.orderedInsert, List.filter_cons, hpa]
  | cons b t ih =>
    intro hs
    have hst : t.Sorted recLe := hs.of_cons
    have hbt : ∀ c ∈ t, recLe b c := List.rel_of_sorted_cons hs
    by_cases hab : recLe a b
    · rw [List.orderedInsert_of_le recLe t hab]
      by_cases hpa : p a
      · by_cases hpb : p b
        · simp only [List.filter_cons, hpa, hpb, if_true]
          rw [List.orderedInsert_of_le recLe (t.filter p) hab]
        · simp only [List.filter_cons, hpa, hpb, Bool.false_eq_true, if_true, if_false]
          rw [orderedInsert_forall_cons]
          intro c hc
          exact IsTrans.trans a b c hab (hbt c (List.mem_filter.mp hc).1)
      · by_cases hpb : p b
        · simp only [List.filter_cons, hpa, hpb, Bool.false_eq_true, if_true, if_false]
        · simp only [List.filter_cons, hpa, hpb, Bool.false_eq_true, if_false]
    · have hins : List.orderedInsert recLe a (b :: t) = b :: List.orderedInsert recLe a t := by
        simp only [List.orderedInsert, if_neg hab]
      rw [hins, List.filter_cons]
      by_cases hpb : p b
      · rw [if_pos hpb, ih hst, List.filter_cons, if_pos hpb]
        by_cases hpa : p a
        · rw [if_pos hpa, if_pos hpa]
          have hins2 : List.orderedInsert recLe a (b :: t.filter p) =
              b :: List.orderedInsert recLe a (t.filter p) := by
            simp only [List.orderedInsert, if_neg hab]
          rw [hins2]
        · rw [if_neg hpa, if_neg hpa]
      · rw [if_neg hpb, ih hst, List.filter_cons, if_neg hpb]

theorem insertionSort_filter (p : EarningsRec → Bool) :
    ∀ l, (List.insertionSort recLe l).filter p = List.insertionSort recLe (l.filter p) := by
  intro l
  induction l with
  | nil => rfl
  | cons a l ih =>
    have h1 : List.insertionSort recLe (a :: l) =
        List.orderedInsert recLe a (List.insertionSort recLe l) := rfl
    rw [h1, filter_orderedInsert p a _ (List.sorted_insertionSort recLe l), List.filter_cons]
    by_cases hpa : p a
    · rw [if_pos hpa, if_pos hpa, ih]
      rfl
    · rw [if_neg hpa, if_neg hpa, ih]

theorem evLoop_eq_blocksOf (ts : Str) :
    ∀ l, evLoop ts l = (blocksOf ts (l.filter hasDate)).map List.flatten := by
  intro l
  induction l with
  | nil => rfl
  | cons r rs ih =>
    by_cases h : hasDate r = true
    · rw [List.filter_cons, if_pos h]
      simp only [evLoop, if_pos h, blocksOf]
      cases hb : to_event_lines r ts with
      | none => rfl
      | some b =>
        rw [ih]
        cases hbs : blocksOf ts (rs.filter hasDate) with
        | none => rfl
        | some bs => rfl
    · rw [List.filter_cons, if_neg h]
      simp only [evLoop, if_neg h]
      exact ih

theorem blocksOf_forall (ts : Str) :
    ∀ l blocks, blocksOf ts l = some blocks →
      List.Forall₂ (fun r b => to_event_lines r ts = some b) l blocks := by
  intro l
  induction l with
  | nil =>
    intro blocks h
    obtain rfl : ([] : List (List Str)) = blocks := Option.some.inj h
    exact List.Forall₂.nil
  | cons r rs ih =>
    intro blocks h
    simp only [blocksOf] at h
    cases hb : to_event_lines r ts with
    | none => rw [hb] at h; cases h
    | some b =>
      rw [hb] at h
      cases hbs : blocksOf ts rs with
      | none => rw [hbs] at h; cases h
      | some bs =>
        rw [hbs] at h
        obtain rfl : b :: bs = blocks := Option.some.inj h
        exact List.Forall₂.cons hb (ih bs hbs)

theorem blocksOf_isSome (ts : Str) :
    ∀ l, (∀ r ∈ l, (to_event_lines r ts).isSome = true) →
      ∃ blocks, blocksOf ts l = some blocks := by
  intro l
  induction l with
  | nil => exact fun _ => ⟨[], rfl⟩
  | cons r rs ih =>
    intro h
    obtain ⟨b, hb⟩ := Option.isSome_iff_exists.mp (h r (List.mem_cons_self r rs))
    obtain ⟨bs, hbs⟩ := ih (fun x hx => h x (List.mem_cons_of_mem r hx))
    refine ⟨b :: bs, ?_⟩
    simp only [blocksOf, hb, hbs]
    rfl

theorem foldAll_total : ∀ L, ∃ F, foldAll L = some F := by
  intro L
  induction L with
  | nil => exact ⟨[], rfl⟩
  | cons l ls ih =>
    obtain ⟨F, hF⟩ := ih
    obtain ⟨fs, hfs, _⟩ := fold_ics_line_spec l 75 (Or.inl (by omega))
    refine ⟨fs ++ F, ?_⟩
    simp only [foldAll, hfs, hF]
    rfl

theorem foldAll_forall :
    ∀ L F, foldAll L = some F →
      ∃ pieces, List.Forall₂ (fun l fs => fold_ics_line l 75 = some fs) L pieces ∧
        F = pieces.flatten := by
  intro L
  induction L with
  | nil =>
    intro F h
    obtain rfl : ([] : List Str) = F := Option.some.inj h
    exact ⟨[], List.Forall₂.nil, rfl⟩
  | cons l ls ih =>
    intro F h
    simp only [foldAll] at h
    cases hfs : fold_ics_line l 75 with
    | none => rw [hfs] at h; cases h
    | some fs =>
      rw [hfs] at h
      cases hFs : foldAll ls with
      | none => rw [hFs] at h; cases h
      | some F' =>
        rw [hFs] at h
        obtain rfl : fs ++ F' = F := Option.some.inj h
        obtain ⟨pieces, hp, rfl⟩ := ih F' hFs
        exact ⟨fs :: pieces, List.Forall₂.cons hfs hp, rfl⟩

theorem foldAll_append (A B : List Str) :
    foldAll (A ++ B) = (foldAll A).bind (fun fa => (foldAll B).map (fun fb => fa ++ fb)) := by
  induction A with
  | nil => cases hB : foldAll B <;> simp [foldAll, hB]
  | cons l A ih =>
    cases hf : fold_ics_line l 75 with
    | none => simp [List.cons_append, foldAll, hf]
    | some fs =>
      cases hA : foldAll A with
      | none => simp [List.cons_append, foldAll, hf, hA, ih]
      | some FA =>
        cases hB : foldAll B with
        | none => simp [List.cons_append, foldAll, hf, hA, hB, ih]
        | some FB => simp [List.cons_append, foldAll, hf, hA, hB, ih, List.append_assoc]

/-! ## Folding of document lines: heads and marker counts -/

/-- UTF-8 octet length of a string (for the octet claim of C2). -/
def utf8Len (s : Str) : ℕ := (s.map Char.utf8Size).sum

theorem forall₂_mem_right {α β : Type} {R : α → β → Prop} :
    ∀ {A : List α} {B : List β}, List.Forall₂ R A B → ∀ b ∈ B, ∃ a ∈ A, R a b := by
  intro A B h
  induction h with
  | nil => intro b hb; cases hb
  | cons hR hrest ih =>
    intro b hb
    rcases List.mem_cons.mp hb with rfl | hb
    · exact ⟨_, List.mem_cons_self _ _, hR⟩
    · obtain ⟨a, ha, hab⟩ := ih b hb
      exact ⟨a, List.mem_cons_of_mem _ ha, hab⟩

/-- Every physical line of a folded logical line either starts like the
line's first 75 characters or is a continuation starting with a space. -/
theorem fold_mem_head (l : Str) (fs : List Str) (hf : fold_ics_line l 75 = some fs) :
    ∀ x ∈ fs, x.head? = (l.take 75).head? ∨ x.head? = some ' ' := by
  obtain ⟨ls, hls, _, _, hconts, hhead, _⟩ := fold_ics_line_spec l 75 (Or.inl (by omega))
  have hsub : ls = fs := Option.some.inj (hls.symm.trans hf)
  rw [hsub] at hconts hhead
  intro x hx
  cases fs with
  | nil => cases hx
  | cons f rest =>
    have hf75 : f = l.take 75 := Option.some.inj hhead
    rcases List.mem_cons.mp hx with rfl | hx
    · rw [hf75]
      exact Or.inl rfl
    · obtain ⟨t, rfl⟩ := hconts x hx
      exact Or.inr rfl

/-- A folded logical line starting with `c` contains no occurrence of a
marker string that starts neither with `c` nor with a space. -/
theorem fold_count_zero (c : Char) (l m : Str) (fs : List Str)
    (hf : fold_ics_line l 75 = some fs) (hl : (l.take 75).head? = some c)
    (hm : m.head? ≠ some c) (hsp : m.head? ≠ some ' ') :
    fs.count m = 0 := by
  rw [List.count_eq_zero]
  intro hmem
  rcases fold_mem_head l fs hf m hmem with h | h
  · rw [hl] at h
    exact hm h
  · exact hsp h

/-- A line within the width folds to itself alone. -/
theorem fold_short (l : Str) (h : l.length ≤ 75) : fold_ics_line l 75 = some [l] := by
  simp [fold_ics_line, h]

theorem count_singleton_ne {m x : Str} (h : m ≠ x) : List.count m [x] = 0 := by
  rw [List.count_eq_zero]
  intro hm
  exact h (List.mem_singleton.mp hm)

/-- Every block the encoder can emit is an `eventLinesCore`. -/
theorem to_event_lines_shape (item : EarningsRec) (ts : Str) (b : List Str)
    (h : to_event_lines item ts = some b) : ∃ d e, b = eventLinesCore item ts d e := by
  unfold to_event_lines at h
  split at h
  · cases h
  · split at h
    · cases h
    · split at h
      · cases h
      · exact ⟨_, _, (Option.some.inj h).symm⟩

theorem eventLinesCore_head (item : EarningsRec) (ts : Str) (d e : Date) :
    (eventLinesCore item ts d e).head? = some beginVEvent := rfl

theorem eventLinesCore_getLast (item : EarningsRec) (ts : Str) (d e : Date) :
    (eventLinesCore item ts d e).getLast? = some endVEvent := rfl

/-- Folding a VEVENT block introduces no occurrence of a marker string `m`
that does not start with `U`/`D`/`S`/space and differs from the two VEVENT
markers — in particular none of `BEGIN:VCALENDAR`, `END:VCALENDAR`. -/
theorem eventLines_fold_count (item : EarningsRec) (ts : Str) (d e : Date) (m : Str)
    (h1 : m.head? ≠ some 'U') (h2 : m.head? ≠ some 'D') (h3 : m.head? ≠ some 'S')
    (h4 : m.head? ≠ some ' ') (h5 : m ≠ beginVEvent) (h6 : m ≠ endVEvent) :
    ∀ fb, foldAll (eventLinesCore item ts d e) = some fb → fb.count m = 0 := by
  intro fb hfb
  obtain ⟨pieces, hforall, rfl⟩ := foldAll_forall _ fb hfb
  unfold eventLinesCore at hforall
  rcases hforall with - | ⟨hp1, hforall⟩
  rcases hforall with - | ⟨hp2, hforall⟩
  rcases hforall with - | ⟨hp3, hforall⟩
  rcases hforall with - | ⟨hp4, hforall⟩
  rcases hforall with - | ⟨hp5, hforall⟩
  rcases hforall with - | ⟨hp6, hforall⟩
  rcases hforall with - | ⟨hp7, hforall⟩
  rcases hforall with - | ⟨hp8, hforall⟩
  cases hforall
  rw [fold_short (("BEGIN:VEVENT").toList) (by decide)] at hp1
  obtain rfl := Option.some.inj hp1
  rw [fold_short (("END:VEVENT").toList) (by decide)] at hp8
  obtain rfl := Option.some.inj hp8
  have k1 : List.count m [(("BEGIN:VEVENT").toList)] = 0 := count_singleton_ne h5
  have k2 := fold_count_zero 'U' _ m _ hp2 rfl h1 h4
  have k3 := fold_count_zero 'D' _ m _ hp3 rfl h2 h4
  have k4 := fold_count_zero 'D' _ m _ hp4 rfl h2 h4
  have k5 := fold_count_zero 'D' _ m _ hp5 rfl h2 h4
  have k6 := fold_count_zero 'S' _ m _ hp6 rfl h3 h4
  have k7 := fold_count_zero 'D' _ m _ hp7 rfl h2 h4
  have k8 : List.count m [(("END:VEVENT").toList)] = 0 := count_singleton_ne h6
  simp only [List.flatten_cons, List.flatten_nil, List.append_nil, List.count_append]
  rw [k1, k2, k3, k4, k5, k6, k7, k8]

/-- Marker counting across the whole folded event region. -/
theorem blocks_fold_count (ts : Str) (m : Str)
    (h1 : m.head? ≠ some 'U') (h2 : m.head? ≠ some 'D') (h3 : m.head? ≠ some 'S')
    (h4 : m.head? ≠ some ' ') (h5 : m ≠ beginVEvent) (h6 : m ≠ endVEvent) :
    ∀ blocks : List (List Str),
      (∀ b ∈ blocks, ∃ item d e, b = eventLinesCore item ts d e) →
      ∃ fe, foldAll blocks.flatten = some fe ∧ fe.count m = 0 := by
  intro blocks
  induction blocks with
  | nil => exact fun _ => ⟨[], rfl, rfl⟩
  | cons b bs ih =>
    intro hb
    obtain ⟨item, d, e, rfl⟩ := hb b (List.mem_cons_self b bs)
    obtain ⟨fe, hfe, hcnt⟩ := ih (fun x hx => hb x (List.mem_cons_of_mem _ hx))
    obtain ⟨fb, hfb⟩ := foldAll_total (eventLinesCore item ts d e)
    have hcb := eventLines_fold_count item ts d e m h1 h2 h3 h4 h5 h6 fb hfb
    refine ⟨fb ++ fe, ?_, ?_⟩
    · rw [List.flatten_cons, foldAll_append, hfb, hfe]
      rfl
    · rw [List.count_append, hcb, hcnt]

/-! ## Claim theorems for C6, C7, C8 -/

/-- C7: records with an absent or empty `date` contribute nothing at all:
the document built from any record list is identical, byte for byte, to
the document built after removing every such record (and it fails in one
exactly when it fails in the other).  In particular none of a dropped
record's fields reach the output. -/
theorem c7_invalid_records_dropped (records : List EarningsRec) (ts : Str) :
    build_calendar records ts = build_calendar (records.filter hasDate) ts := by
  unfold build_calendar logicalLines
  have h1 : evLoop ts (pySorted records) = evLoop ts (pySorted (records.filter hasDate)) := by
    rw [evLoop_eq_blocksOf, evLoop_eq_blocksOf]
    unfold pySorted
    rw [insertionSort_filter, insertionSort_filter, List.filter_filter]
    have : (fun a => hasDate a && hasDate a) = hasDate := by
      funext a
      rw [Bool.and_self]
    rw [this]
  rw [h1]

/-- C6: the VEVENT blocks of the built document appear exactly in the
order of `emitted records` — the sorted-then-filtered record list — and
that list is pairwise nondecreasing in the Python key order
`(date, symbol)` (dates and symbols compared lexicographically as raw
strings, date first, symbol as tie-break). -/
theorem c6_sorted_output (records : List EarningsRec) (ts : Str) :
    List.Pairwise recLe (emitted records) ∧
    ∀ L, logicalLines records ts = some L →
      ∃ blocks, List.Forall₂ (fun r b => to_event_lines r ts = some b) (emitted records) blocks ∧
        L = headerLines ++ blocks.flatten ++ [endVCal] := by
  constructor
  · exact (List.sorted_insertionSort recLe records).filter hasDate
  · intro L hL
    unfold logicalLines at hL
    rw [evLoop_eq_blocksOf] at hL
    cases hbs : blocksOf ts ((pySorted records).filter hasDate) with
    | none => rw [hbs] at hL; cases hL
    | some blocks =>
      rw [hbs] at hL
      obtain rfl : headerLines ++ blocks.flatten ++ [endVCal] = L := Option.some.inj hL
      exact ⟨blocks, blocksOf_forall ts _ blocks hbs, rfl⟩

/-- The three records of claim C6's example, in the claim's input order. -/
def recB6 : EarningsRec := ⟨some (("B").toList), some (("2024-03-01").toList), none, none, NumInput.null⟩

def recA6 : EarningsRec := ⟨some (("A").toList), some (("2024-03-01").toList), none, none, NumInput.null⟩

def recZ6 : EarningsRec := ⟨some (("Z").toList), some (("2024-02-15").toList), none, none, NumInput.null⟩

theorem c6_sorted_output_witness :
    emitted [recB6, recA6, recZ6] = [recZ6, recA6, recB6] ∧
    List.Pairwise recLe (emitted [recB6, recA6, recZ6]) ∧
    logicalLines [recB6, recA6, recZ6] ts0 =
      some ((logicalLines [recB6, recA6, recZ6] ts0).getD []) ∧
    (∃ blocks,
      List.Forall₂ (fun r b => to_event_lines r ts0 = some b) (emitted [recB6, recA6, recZ6]) blocks ∧
      (logicalLines [recB6, recA6, recZ6] ts0).getD [] =
        headerLines ++ blocks.flatten ++ [endVCal]) :=
  ⟨by decide, (c6_sorted_output [recB6, recA6, recZ6] ts0).1, rfl,
    (c6_sorted_output [recB6, recA6, recZ6] ts0).2 _ rfl⟩

/-- The record of C8's counterexample: a present, non-empty, unparseable
date. -/
def recBadDate : EarningsRec :=
  ⟨some (("X").toList), some (("not-a-date").toList), none, none, NumInput.null⟩

/-- C8, counterexample.  `build_calendar` only skips records whose `date`
is absent or empty (`if not rec.get("date")`); a present non-empty but
unparseable date reaches `datetime.fromisoformat`, which raises
`ValueError`, so the build raises instead of returning a document. -/
theorem c8_counterexample :
    hasDate recBadDate = true ∧ build_calendar [recBadDate] ts0 = none :=
  ⟨by decide, by decide⟩

/-- C8 (amended): a record whose `date` is absent or empty is silently
dropped and never reaches the encoder (see `c7_invalid_records_dropped`),
and whenever every record with a truthy date is acceptable to the encoder
(parseable ISO date with a representable successor), `build_calendar`
returns a document.  A truthy unparseable date, however, makes the
encoder raise (see `c8_counterexample`). -/
theorem c8_build_total (records : List EarningsRec) (ts : Str)
    (h : ∀ r ∈ records, hasDate r = true → (to_event_lines r ts).isSome = true) :
    ∃ doc, build_calendar records ts = some doc := by
  have hmem : ∀ r ∈ emitted records, (to_event_lines r ts).isSome = true := by
    intro r hr
    have h1 := List.mem_filter.mp hr
    have h2 : r ∈ records := ((List.perm_insertionSort recLe records).mem_iff).mp h1.1
    exact h r h2 h1.2
  obtain ⟨blocks, hblocks⟩ := blocksOf_isSome ts (emitted records) hmem
  have hev : evLoop ts (pySorted records) = some blocks.flatten := by
    rw [evLoop_eq_blocksOf]
    unfold emitted at hblocks
    rw [hblocks]
    rfl
  obtain ⟨F, hF⟩ := foldAll_total (headerLines ++ blocks.flatten ++ [endVCal])
  refine ⟨joinStr crlf F ++ crlf, ?_⟩
  unfold build_calendar logicalLines
  rw [hev]
  show (foldAll (headerLines ++ blocks.flatten ++ [endVCal])).map _ = _
  rw [hF]
  rfl

/-- A record with an absent date, dropped silently. -/
def recNoDate : EarningsRec := ⟨some (("N").toList), none, none, none, NumInput.null⟩

theorem c8_build_total_witness :
    (∀ r ∈ [recC5, recNoDate], hasDate r = true → (to_event_lines r ts0).isSome = true) ∧
    (∃ doc, build_calendar [recC5, recNoDate] ts0 = some doc) :=
  ⟨by decide, c8_build_total [recC5, recNoDate] ts0 (by decide)⟩

theorem c9_description_witness :
    (∃ lines, to_event_lines recC9 ts0 = some lines ∧ lines.length = 8 ∧
      lines.get? 6 = some (("DESCRIPTION:").toList ++ escape_ics_text (joinStr ['\n']
        [ ("Ticker: ").toList ++ recC9.symbol.getD (("UNKNOWN").toList),
          ("Fiscal Qtr: ").toList ++ recC9.quarter.getD (("-").toList),
          ("Estimate EPS: ").toList ++ recC9.epsEstimate.getD (("-").toList),
          ("Est. Revenue: ").toList ++ fmt_number recC9.revenueEstimate,
          ("Source: Finnhub (non-GAAP)").toList ]))) ∧
    recC9.symbol = none ∧
    escape_ics_text (joinStr ['\n']
        [ ("Ticker: ").toList ++ recC9.symbol.getD (("UNKNOWN").toList),
          ("Fiscal Qtr: ").toList ++ recC9.quarter.getD (("-").toList),
          ("Estimate EPS: ").toList ++ recC9.epsEstimate.getD (("-").toList),
          ("Est. Revenue: ").toList ++ fmt_number recC9.revenueEstimate,
          ("Source: Finnhub (non-GAAP)").toList ]) =
      ("Ticker: UNKNOWN\\nFiscal Qtr: 2\\nEstimate EPS: 2.5\\nEst. Revenue: 456 M\\nSource: Finnhub (non-GAAP)").toList :=
  ⟨c9_description recC9 ts0 (("2024-05-10").toList) ⟨2024, 5, 10⟩ ⟨2024, 5, 11⟩
      rfl (by decide) (by decide),
    rfl, by decide⟩

/-! ## Claim theorems for C2 and C10 -/

/-- A record whose long non-ASCII symbol makes a folded line exceed 75
octets. -/
def recWide : EarningsRec :=
  ⟨some (List.replicate 40 'é'), some (("2024-05-10").toList), none, none, NumInput.null⟩

/-- C2, counterexample.  `fold_ics_line` folds by *characters*
(`len(line)`), not UTF-8 octets: for a record whose symbol is forty copies
of `é` (two octets each) the build succeeds and the first physical line of
the UID property — line index 7 of the folded document — is exactly 75
characters but 115 octets long, violating the claimed 75-octet bound. -/
theorem c2_counterexample :
    build_calendar [recWide] ts0 =
      some (joinStr crlf (((logicalLines [recWide] ts0).bind foldAll).getD []) ++ crlf) ∧
    List.getD (((logicalLines [recWide] ts0).bind foldAll).getD []) 7 [] ∈
      ((logicalLines [recWide] ts0).bind foldAll).getD [] ∧
    (List.getD (((logicalLines [recWide] ts0).bind foldAll).getD []) 7 []).length ≤ 75 ∧
    75 < utf8Len (List.getD (((logicalLines [recWide] ts0).bind foldAll).getD []) 7 []) :=
  ⟨rfl, by decide, by decide, by decide⟩

/-- C2 (amended): for every record list on which the build succeeds, the
document is the CRLF-join of the folded lines `F` of the logical lines
`L`, and: every physical line is at most 75 *characters* (code points —
the source folds by `len`, so the claimed octet bound holds only for
ASCII content, see `c2_counterexample`); every logical line folds so that
continuation lines carry exactly one added leading space and stripping it
reconstructs the line; the logical document is one VCALENDAR header, a
concatenation of VEVENT blocks each delimited by its own
`BEGIN:VEVENT`/`END:VEVENT` pair, and the closing `END:VCALENDAR`; and the
folded document contains exactly one `BEGIN:VCALENDAR` and one
`END:VCALENDAR` physical line. -/
theorem c2_document_invariants (records : List EarningsRec) (ts : Str) (doc : Str)
    (h : build_calendar records ts = some doc) :
    ∃ L F, logicalLines records ts = some L ∧ foldAll L = some F ∧
      doc = joinStr crlf F ++ crlf ∧
      (∀ l ∈ F, l.length ≤ 75) ∧
      (∀ l ∈ L, ∃ fs, fold_ics_line l 75 = some fs ∧ fs.head? = some (l.take 75) ∧
        (∀ cl ∈ fs.tail, ∃ t, cl = ' ' :: t) ∧ unfoldJoin fs = l) ∧
      (∃ blocks : List (List Str), L = headerLines ++ blocks.flatten ++ [endVCal] ∧
        ∀ b ∈ blocks, b.head? = some beginVEvent ∧ b.getLast? = some endVEvent) ∧
      F.count beginVCal = 1 ∧ F.count endVCal = 1 := by
  unfold build_calendar at h
  cases hL : logicalLines records ts with
  | none => rw [hL] at h; cases h
  | some L =>
    rw [hL] at h
    have h' : (foldAll L).map (fun F => joinStr crlf F ++ crlf) = some doc := h
    cases hF : foldAll L with
    | none => rw [hF] at h'; cases h'
    | some F =>
      rw [hF] at h'
      have hdoc : doc = joinStr crlf F ++ crlf := (Option.some.inj h').symm
      have hLb := hL
      unfold logicalLines at hLb
      rw [evLoop_eq_blocksOf] at hLb
      cases hbs : blocksOf ts ((pySorted records).filter hasDate) with
      | none => rw [hbs] at hLb; cases hLb
      | some blocks =>
        rw [hbs] at hLb
        have hLdef : headerLines ++ blocks.flatten ++ [endVCal] = L := Option.some.inj hLb
        have hshapes : ∀ b ∈ blocks, ∃ item d' e', b = eventLinesCore item ts d' e' := by
          intro b hb
          obtain ⟨r, _, henc⟩ := forall₂_mem_right (blocksOf_forall ts _ blocks hbs) b hb
          obtain ⟨d', e', rfl⟩ := to_event_lines_shape r ts _ henc
          exact ⟨r, d', e', rfl⟩
        obtain ⟨feB, hfeB, hcntB⟩ := blocks_fold_count ts beginVCal (by decide) (by decide)
          (by decide) (by decide) (by decide) (by decide) blocks hshapes
        obtain ⟨feE, hfeE, hcntE⟩ := blocks_fold_count ts endVCal (by decide) (by decide)
          (by decide) (by decide) (by decide) (by decide) blocks hshapes
        obtain rfl : feB = feE := Option.some.inj (hfeB.symm.trans hfeE)
        have hFdecomp : foldAll L = some (headerLines ++ feB ++ [endVCal]) := by
          rw [← hLdef, foldAll_append, foldAll_append, hfeB]
          rw [show foldAll headerLines = some headerLines from rfl]
          rw [show foldAll [endVCal] = some [endVCal] from rfl]
          rfl
        have hFval : F = headerLines ++ feB ++ [endVCal] :=
          Option.some.inj (hF.symm.trans hFdecomp)
        obtain ⟨pieces, hpf, hflat⟩ := foldAll_forall L F hF
        refine ⟨L, F, rfl, hF, hdoc, ?_, ?_, ⟨blocks, hLdef.symm, ?_⟩, ?_, ?_⟩
        · intro l hl
          rw [hflat] at hl
          obtain ⟨piece, hpmem, hlp⟩ := List.mem_flatten.mp hl
          obtain ⟨l0, _, hfold⟩ := forall₂_mem_right hpf piece hpmem
          obtain ⟨ls, hls, hlen, _, _, _, _⟩ := fold_ics_line_spec l0 75 (Or.inl (by omega))
          have : ls = piece := Option.some.inj (hls.symm.trans hfold)
          subst this
          exact hlen l hlp
        · intro l _
          obtain ⟨fs, h1, h2, h3, h4, h5, _⟩ := fold_ics_line_spec l 75 (Or.inl (by omega))
          exact ⟨fs, h1, h5, h4, h3⟩
        · intro b hb
          obtain ⟨item, d', e', rfl⟩ := hshapes b hb
          exact ⟨eventLinesCore_head item ts d' e', eventLinesCore_getLast item ts d' e'⟩
        · rw [hFval, List.count_append, List.count_append, hcntB]
          rw [show List.count beginVCal headerLines = 1 from by decide]
          rw [show List.count beginVCal [endVCal] = 0 from by decide]
        · rw [hFval, List.count_append, List.count_append, hcntE]
          rw [show List.count endVCal headerLines = 0 from by decide]
          rw [show List.count endVCal [endVCal] = 1 from by decide]

theorem c2_document_invariants_witness :
    build_calendar [recC5] ts0 = some ((build_calendar [recC5] ts0).getD []) ∧
    (∃ L F, logicalLines [recC5] ts0 = some L ∧ foldAll L = some F ∧
      (build_calendar [recC5] ts0).getD [] = joinStr crlf F ++ crlf ∧
      (∀ l ∈ F, l.length ≤ 75) ∧
      (∀ l ∈ L, ∃ fs, fold_ics_line l 75 = some fs ∧ fs.head? = some (l.take 75) ∧
        (∀ cl ∈ fs.tail, ∃ t, cl = ' ' :: t) ∧ unfoldJoin fs = l) ∧
      (∃ blocks : List (List Str), L = headerLines ++ blocks.flatten ++ [endVCal] ∧
        ∀ b ∈ blocks, b.head? = some beginVEvent ∧ b.getLast? = some endVEvent) ∧
      F.count beginVCal = 1 ∧ F.count endVCal = 1) :=
  ⟨rfl, c2_document_invariants [recC5] ts0 _ rfl⟩

/-- `len(records)` — the count `main` prints on success (source line
147): the length of the *fetched* list, including records that
`build_calendar` drops. -/
def printed_event_count (records : List EarningsRec) : ℕ := records.length

/-- A record with a present but empty date, dropped by the builder. -/
def recEmptyDate : EarningsRec := ⟨some (("E").toList), some [], none, none, NumInput.null⟩

/-- C10, evaluation at the failing input.  With one valid record and one
record whose date is the empty string, `main` prints "2 events" while the
written document contains exactly one VEVENT block: the printed count is
`len(records)`, not the number of events written. -/
theorem c10_count_mismatch :
    printed_event_count [recC5, recEmptyDate] = 2 ∧
    build_calendar [recC5, recEmptyDate] ts0 =
      some (joinStr crlf (((logicalLines [recC5, recEmptyDate] ts0).bind foldAll).getD []) ++ crlf) ∧
    (((logicalLines [recC5, recEmptyDate] ts0).bind foldAll).getD []).count beginVEvent = 1 ∧
    (((logicalLines [recC5, recEmptyDate] ts0).bind foldAll).getD []).count endVEvent = 1 :=
  ⟨rfl, rfl, by decide, by decide⟩

end EarningsCal
